import Mathlib

/-!
Verification of the event-log engine of Inputlog-lite-for-research.

Texts are embedded as `List Char` (one element per UTF-16 code unit of the
JS string); times and character positions are embedded as `Int` (JS numbers
used integrally throughout the source).  The JS string primitives the source
uses (`slice` with possibly negative indices, truthiness of `content`,
`trim`, `split(/\s+/)`) are modelled explicitly below.
-/

namespace Inputlog

/-! ## JS string primitives -/

/-- Normalisation of a JS `String.prototype.slice` index: a negative index
counts from the end (clamped at 0), a non-negative one is clamped to the
length. -/
def jsIndex (len : Nat) (i : Int) : Nat :=
  if i < 0 then ((len : Int) + i).toNat else min i.toNat len

/-- JS `s.slice(a, b)`. -/
def jsSlice (s : List Char) (a b : Int) : List Char :=
  (s.take (jsIndex s.length b)).drop (jsIndex s.length a)

/-- JS `s.slice(a)`. -/
def jsSliceFrom (s : List Char) (a : Int) : List Char :=
  s.drop (jsIndex s.length a)

/-- The length the source reads off an optional content string through JS
truthiness: both `content ? content.length : 1` and
`content?.length || 1` give the length when the string is present and
non-empty, and 1 when it is absent or empty (the empty string and
`undefined` are both falsy). -/
def jsLenOr1 : Option (List Char) → Nat
  | some (c :: cs) => (c :: cs).length
  | _ => 1

/-! ## Event model (spec §3; the repository's `types.ts` shapes, as used by
the source files) -/

inductive EventType where
  | insert | delete | paste | navigation | focus | blur
deriving DecidableEq, BEq, Repr

structure LogEvent where
  id : String := ""
  type : EventType
  timestamp : Int := 0
  relativeTime : Int
  position : Int
  content : Option (List Char) := none
  pauseBefore : Int := 0
  actionDetails : Option String := none
deriving DecidableEq, Repr

/-- A finished session, as consumed by the analysis and replay components.
`endTime` is optional in the source while recording; analysis uses it with a
non-null assertion, so it is a plain field here.  The `id`/`studentName`
plumbing is kept for shape fidelity. -/
structure WritingSession where
  id : String := ""
  studentName : String := ""
  startTime : Int := 0
  endTime : Int := 0
  events : List LogEvent := []
  finalText : List Char := []
  totalActiveTime : Int := 0
  totalPauseTime : Int := 0
deriving DecidableEq, Repr

/-! ## Replay engine (`ReplayPlayer`, `reconstructTextAtTime`) -/

/-- The insert/paste splice of `reconstructTextAtTime` (and, identically, of
`calculateMetrics`): `left + (content || '') + right` with
`left = currentText.slice(0, position)`, `right = currentText.slice(position)`. -/
def spliceInsert (currentText : List Char) (e : LogEvent) : List Char :=
  jsSlice currentText 0 e.position ++ e.content.getD [] ++ jsSliceFrom currentText e.position

/-- The delete splice: `left = slice(0, position)`,
`right = slice(position + deleteLen)` with
`deleteLen = content ? content.length : 1`. -/
def spliceDelete (currentText : List Char) (e : LogEvent) : List Char :=
  jsSlice currentText 0 e.position ++ jsSliceFrom currentText (e.position + (jsLenOr1 e.content : Int))

/-- One event's effect on the replay buffer. -/
def applyTextEvent (currentText : List Char) (e : LogEvent) : List Char :=
  if e.type = .insert ∨ e.type = .paste then
    spliceInsert currentText e
  else if e.type = .delete then
    spliceDelete currentText e
  else currentText

/-- The fold of `reconstructTextAtTime`: events are consumed in order and the
loop breaks at the first event with `relativeTime > targetTime`. -/
def reconstructAux (targetTime : Int) : List LogEvent → List Char → List Char
  | [], currentText => currentText
  | e :: rest, currentText =>
    if targetTime < e.relativeTime then currentText
    else reconstructAux targetTime rest (applyTextEvent currentText e)

/-- The `relevantEvents` filter of `ReplayPlayer`. -/
def isTextEvent (e : LogEvent) : Bool :=
  e.type == .insert || e.type == .delete || e.type == .paste

def relevantEvents (events : List LogEvent) : List LogEvent :=
  events.filter isTextEvent

/-- The `reconstructTextAtTime` of `ReplayPlayer`, as a function of the event
list and the target time. -/
def reconstructTextAtTime (events : List LogEvent) (targetTime : Int) : List Char :=
  reconstructAux targetTime (relevantEvents events) []

/-! ### Claim-side replay with positions clamped to the buffer bounds
(the behaviour claim C7 asserts for out-of-range indices). -/

/-- An index clamped into `[0, len]`, as the spec's words "clamped to the
buffer bounds" describe. -/
def clampIndex (len : Nat) (i : Int) : Nat :=
  min i.toNat len

def spliceInsertClamped (currentText : List Char) (e : LogEvent) : List Char :=
  currentText.take (clampIndex currentText.length e.position) ++ e.content.getD [] ++
    currentText.drop (clampIndex currentText.length e.position)

def spliceDeleteClamped (currentText : List Char) (e : LogEvent) : List Char :=
  currentText.take (clampIndex currentText.length e.position) ++
    currentText.drop (clampIndex currentText.length (e.position + (jsLenOr1 e.content : Int)))

def applyTextEventClamped (currentText : List Char) (e : LogEvent) : List Char :=
  if e.type = .insert ∨ e.type = .paste then
    spliceInsertClamped currentText e
  else if e.type = .delete then
    spliceDeleteClamped currentText e
  else currentText

def reconstructClampedAux (targetTime : Int) : List LogEvent → List Char → List Char
  | [], currentText => currentText
  | e :: rest, currentText =>
    if targetTime < e.relativeTime then currentText
    else reconstructClampedAux targetTime rest (applyTextEventClamped currentText e)

/-- The replay the claim describes: identical to `reconstructTextAtTime`
except that every position and delete range is clamped into the buffer
bounds `[0, length]`. -/
def reconstructClamped (events : List LogEvent) (targetTime : Int) : List Char :=
  reconstructClampedAux targetTime (relevantEvents events) []

/-! ## Diff capture (`WritingEditor.handleChange`) -/

/-- The first while loop of `handleChange`: `start` counts matching leading
characters of the two snapshots. -/
def lcpLen : List Char → List Char → Nat
  | a :: as, b :: bs => if a = b then lcpLen as bs + 1 else 0
  | _, _ => 0

/-- The second while loop of `handleChange`: `endOld`/`endNew` start at the
last index of each snapshot and walk down in lockstep while both stay `≥
start` and the characters match.  Comparing the two texts from their ends,
bounded below at `start`, is comparing the reversals of the two suffixes
that begin at `start`; the loop runs `commonSuffixLen` times and stops with
`endOld = oldText.length - 1 - commonSuffixLen`. -/
def commonSuffixLen (oldText newText : List Char) (start : Nat) : Nat :=
  lcpLen (oldText.drop start).reverse (newText.drop start).reverse

/-- The argument `handleChange` passes to `logEvent` for one emitted event
(the `id`/`timestamp`/`relativeTime`/`pauseBefore` fields are filled in by
the recorder). -/
structure CapturedEvent where
  type : EventType
  position : Nat
  content : List Char
  actionDetails : String
deriving DecidableEq, Repr

/-- The events `handleChange` logs for one edit from `oldText` to `newText`:
a delete at `start` carrying `oldText.slice(start, endOld + 1)` when that
span is non-empty, then an insert (`paste` when longer than one character)
at `start` carrying `newText.slice(start, endNew + 1)` when non-empty. -/
def handleChangeEvents (oldText newText : List Char) : List CapturedEvent :=
  let start := lcpLen oldText newText
  let s := commonSuffixLen oldText newText start
  let deletedText := jsSlice oldText (start : Int) ((oldText.length : Int) - (s : Int))
  let insertedText := jsSlice newText (start : Int) ((newText.length : Int) - (s : Int))
  (if deletedText.length > 0 then
    [{ type := .delete, position := start, content := deletedText,
       actionDetails := "Delete/Backspace" }]
   else []) ++
  (if insertedText.length > 0 then
    [{ type := if insertedText.length > 1 then .paste else .insert, position := start,
       content := insertedText,
       actionDetails := if insertedText.length > 1 then "Paste/Replace" else "Type" }]
   else [])

/-- A captured event as the recorder stores it, when logged at time `t`
counted from a session start at absolute time 0 (so `timestamp =
relativeTime = t`). -/
def eventOfCaptured (t : Int) (c : CapturedEvent) : LogEvent :=
  { type := c.type, timestamp := t, relativeTime := t, position := (c.position : Int),
    content := some c.content, actionDetails := some c.actionDetails }

/-- The log produced by running `handleChange` over a chain of snapshots,
the edit leading to the i-th snapshot logged at relative time `t + i`. -/
def captureLog : List Char → Int → List (List Char) → List LogEvent
  | _, _, [] => []
  | prev, t, snap :: rest =>
    (handleChangeEvents prev snap).map (eventOfCaptured t) ++ captureLog snap (t + 1) rest

/-- The last `n` characters of a list (used to state the common-suffix facts
about `handleChange`). -/
def takeLast (n : Nat) (l : List Char) : List Char :=
  (l.reverse.take n).reverse

/-! ## Facts about the two-sided trim -/

theorem lcpLen_le_left : ∀ a b : List Char, lcpLen a b ≤ a.length
  | [], _ => by simp [lcpLen]
  | _ :: _, [] => by simp [lcpLen]
  | a :: as, b :: bs => by
    simp only [lcpLen, List.length_cons]
    split
    · exact Nat.succ_le_succ (lcpLen_le_left as bs)
    · exact Nat.zero_le _

theorem lcpLen_le_right : ∀ a b : List Char, lcpLen a b ≤ b.length
  | [], _ => by simp [lcpLen]
  | _ :: _, [] => by simp [lcpLen]
  | a :: as, b :: bs => by
    simp only [lcpLen, List.length_cons]
    split
    · exact Nat.succ_le_succ (lcpLen_le_right as bs)
    · exact Nat.zero_le _

theorem take_lcpLen_eq : ∀ a b : List Char, a.take (lcpLen a b) = b.take (lcpLen a b)
  | [], b => by simp [lcpLen]
  | _ :: _, [] => by simp [lcpLen]
  | a :: as, b :: bs => by
    simp only [lcpLen]
    split
    · next h => simp [List.take_succ_cons, h, take_lcpLen_eq as bs]
    · simp

theorem le_lcpLen_of_take_eq :
    ∀ (a b : List Char) (k : Nat), k ≤ a.length → k ≤ b.length →
      a.take k = b.take k → k ≤ lcpLen a b
  | [], _, k, hk, _, _ => by simp at hk; omega
  | _ :: _, [], k, _, hk, _ => by simp at hk; omega
  | a :: as, b :: bs, 0, _, _, _ => Nat.zero_le _
  | a :: as, b :: bs, k + 1, hk1, hk2, heq => by
    simp only [List.take_succ_cons, List.cons.injEq] at heq
    simp only [lcpLen, heq.1, if_pos]
    exact Nat.succ_le_succ (le_lcpLen_of_take_eq as bs k
      (Nat.le_of_succ_le_succ (by simpa using hk1))
      (Nat.le_of_succ_le_succ (by simpa using hk2)) heq.2)

theorem commonSuffixLen_le_left (o n : List Char) (p : Nat) :
    commonSuffixLen o n p ≤ o.length - p := by
  simpa [commonSuffixLen] using lcpLen_le_left (o.drop p).reverse (n.drop p).reverse

theorem commonSuffixLen_le_right (o n : List Char) (p : Nat) :
    commonSuffixLen o n p ≤ n.length - p := by
  simpa [commonSuffixLen] using lcpLen_le_right (o.drop p).reverse (n.drop p).reverse

theorem takeLast_eq_drop (n : Nat) (l : List Char) : takeLast n l = l.drop (l.length - n) := by
  rw [takeLast, List.take_reverse, List.reverse_reverse]

theorem takeLast_drop_eq (l : List Char) (p s : Nat) (hp : p ≤ l.length)
    (hs : s ≤ l.length - p) : takeLast s (l.drop p) = takeLast s l := by
  rw [takeLast_eq_drop, takeLast_eq_drop, List.drop_drop, List.length_drop]
  congr 1
  omega

theorem takeLast_commonSuffix_eq (o n : List Char) (p : Nat) :
    takeLast (commonSuffixLen o n p) (o.drop p) = takeLast (commonSuffixLen o n p) (n.drop p) := by
  rw [takeLast, takeLast, commonSuffixLen, take_lcpLen_eq]

theorem commonSuffixLen_max (o n : List Char) (p k : Nat)
    (h1 : p + k ≤ o.length) (h2 : p + k ≤ n.length)
    (h3 : takeLast k o = takeLast k n) : k ≤ commonSuffixLen o n p := by
  apply le_lcpLen_of_take_eq
  · simp only [List.length_reverse, List.length_drop]; omega
  · simp only [List.length_reverse, List.length_drop]; omega
  · have ho : (o.drop p).reverse.take k = (takeLast k (o.drop p)).reverse := by
      rw [takeLast, List.reverse_reverse]
    have hn : (n.drop p).reverse.take k = (takeLast k (n.drop p)).reverse := by
      rw [takeLast, List.reverse_reverse]
    rw [ho, hn, takeLast_drop_eq o p k (by omega) (by omega),
      takeLast_drop_eq n p k (by omega) (by omega), h3]

theorem take_middle_last (l : List Char) (p s : Nat) (h : p + s ≤ l.length) :
    l.take p ++ (l.take (l.length - s)).drop p ++ takeLast s l = l := by
  rw [takeLast_eq_drop]
  have hp : l.take p = (l.take (l.length - s)).take p := by
    rw [List.take_take, Nat.min_eq_left (by omega)]
  rw [hp, List.take_append_drop, List.take_append_drop]

theorem jsIndex_natCast (len n : Nat) (h : n ≤ len) : jsIndex len (n : Int) = n := by
  rw [jsIndex, if_neg (by omega), Int.toNat_natCast, Nat.min_eq_left h]

theorem jsSlice_span (l : List Char) (p s : Nat) (hp : p ≤ l.length) (hs : s ≤ l.length) :
    jsSlice l (p : Int) ((l.length : Int) - (s : Int)) = (l.take (l.length - s)).drop p := by
  rw [jsSlice, show (l.length : Int) - (s : Int) = ((l.length - s : Nat) : Int) by omega,
    jsIndex_natCast _ _ (Nat.sub_le _ _), jsIndex_natCast _ _ hp]

/-- The span `oldText[start .. oldText.length - s)` the claim describes for
the delete event's content. -/
def removedSpan (o n : List Char) : List Char :=
  (o.take (o.length - commonSuffixLen o n (lcpLen o n))).drop (lcpLen o n)

/-- The span `newText[start .. newText.length - s)` the claim describes for
the insert event's content. -/
def insertedSpan (o n : List Char) : List Char :=
  (n.take (n.length - commonSuffixLen o n (lcpLen o n))).drop (lcpLen o n)

/-- C2: `handleChange` computes the longest common prefix length `p` and the
longest common suffix length `s` bounded so the two regions do not overlap,
and emits a delete event at position `p` carrying `old[p .. len(old)-s)`
when non-empty followed by an insert event (`paste` when longer than one
character) at position `p` carrying `new[p .. len(new)-s)` when non-empty.
The claim's concrete example is corrected: for old="Hello world",
new="Hello there world" the suffix loop stops at `endOld = start - 1` after
matching "world" (5 characters), so the single emitted event carries
"there " (with a trailing space) at position 6, not "there". -/
theorem handleChange_two_sided_trim (oldText newText : List Char) :
    (oldText.take (lcpLen oldText newText) = newText.take (lcpLen oldText newText) ∧
      ∀ k, k ≤ oldText.length → k ≤ newText.length →
        oldText.take k = newText.take k → k ≤ lcpLen oldText newText) ∧
    (lcpLen oldText newText + commonSuffixLen oldText newText (lcpLen oldText newText) ≤
        oldText.length ∧
      lcpLen oldText newText + commonSuffixLen oldText newText (lcpLen oldText newText) ≤
        newText.length ∧
      takeLast (commonSuffixLen oldText newText (lcpLen oldText newText)) oldText =
        takeLast (commonSuffixLen oldText newText (lcpLen oldText newText)) newText ∧
      ∀ k, lcpLen oldText newText + k ≤ oldText.length →
        lcpLen oldText newText + k ≤ newText.length →
        takeLast k oldText = takeLast k newText →
        k ≤ commonSuffixLen oldText newText (lcpLen oldText newText)) ∧
    handleChangeEvents oldText newText =
      (if 0 < (removedSpan oldText newText).length then
        [{ type := .delete, position := lcpLen oldText newText,
           content := removedSpan oldText newText, actionDetails := "Delete/Backspace" }]
       else []) ++
      (if 0 < (insertedSpan oldText newText).length then
        [{ type := if 1 < (insertedSpan oldText newText).length then .paste else .insert,
           position := lcpLen oldText newText, content := insertedSpan oldText newText,
           actionDetails := if 1 < (insertedSpan oldText newText).length then "Paste/Replace"
             else "Type" }]
       else []) ∧
    handleChangeEvents "Hello world".toList "Hello there world".toList =
      [{ type := .paste, position := 6, content := "there ".toList,
         actionDetails := "Paste/Replace" }] := by
  have hpo := lcpLen_le_left oldText newText
  have hpn := lcpLen_le_right oldText newText
  have hso := commonSuffixLen_le_left oldText newText (lcpLen oldText newText)
  have hsn := commonSuffixLen_le_right oldText newText (lcpLen oldText newText)
  refine ⟨⟨take_lcpLen_eq _ _, fun k h1 h2 h3 => le_lcpLen_of_take_eq _ _ k h1 h2 h3⟩,
    ⟨by omega, by omega, ?_, fun k h1 h2 h3 => commonSuffixLen_max _ _ _ k h1 h2 h3⟩, ?_, ?_⟩
  · rw [← takeLast_drop_eq oldText _ _ hpo hso, ← takeLast_drop_eq newText _ _ hpn hsn]
    exact takeLast_commonSuffix_eq _ _ _
  · simp only [handleChangeEvents, removedSpan, insertedSpan]
    rw [jsSlice_span oldText _ _ hpo (by omega), jsSlice_span newText _ _ hpn (by omega)]
  · decide

/-- C2 counterexample: for old="Hello world", new="Hello there world" the
code emits one paste event at position 6 with content "there " — common
suffix "world", not " world", because the backward scan is bounded below at
`start` — while the claim asserts content "there". -/
theorem handleChange_hello_there_cex :
    handleChangeEvents "Hello world".toList "Hello there world".toList =
      [{ type := .paste, position := 6, content := "there ".toList,
         actionDetails := "Paste/Replace" }] ∧
    "there ".toList ≠ "there".toList := by
  exact ⟨by decide, by decide⟩

/-! ## Round trip: diff capture followed by replay -/

theorem jsLenOr1_some_of_ne_nil (d : List Char) (hd : d ≠ []) :
    jsLenOr1 (some d) = d.length := by
  match d, hd with
  | c :: cs, _ => rfl

def applyAll (currentText : List Char) (events : List LogEvent) : List Char :=
  events.foldl applyTextEvent currentText

theorem spliceInsert_inRange (l : List Char) (e : LogEvent) (p : Nat)
    (hpos : e.position = (p : Int)) (hp : p ≤ l.length) :
    spliceInsert l e = l.take p ++ e.content.getD [] ++ l.drop p := by
  rw [spliceInsert, hpos, jsSlice, jsSliceFrom, jsIndex_natCast _ _ hp,
    show jsIndex l.length 0 = 0 by simp [jsIndex]]
  simp

theorem spliceDelete_inRange (l : List Char) (e : LogEvent) (p : Nat)
    (hpos : e.position = (p : Int)) (hlen : p + jsLenOr1 e.content ≤ l.length) :
    spliceDelete l e = l.take p ++ l.drop (p + jsLenOr1 e.content) := by
  rw [spliceDelete, hpos, jsSlice, jsSliceFrom,
    show (p : Int) + ((jsLenOr1 e.content : Nat) : Int) = ((p + jsLenOr1 e.content : Nat) : Int)
      by push_cast; ring,
    jsIndex_natCast _ _ hlen, jsIndex_natCast _ _ (by omega),
    show jsIndex l.length 0 = 0 by simp [jsIndex]]
  simp

theorem applyAll_handleChange (t : Int) (o n : List Char) :
    applyAll o ((handleChangeEvents o n).map (eventOfCaptured t)) = n := by
  have hpo := lcpLen_le_left o n
  have hpn := lcpLen_le_right o n
  have hso := commonSuffixLen_le_left o n (lcpLen o n)
  have hsn := commonSuffixLen_le_right o n (lcpLen o n)
  set p := lcpLen o n with hp
  set s := commonSuffixLen o n p with hs
  have hdel : jsSlice o (p : Int) ((o.length : Int) - (s : Int)) =
      (o.take (o.length - s)).drop p := jsSlice_span o p s hpo (by omega)
  have hins : jsSlice n (p : Int) ((n.length : Int) - (s : Int)) =
      (n.take (n.length - s)).drop p := jsSlice_span n p s hpn (by omega)
  have hdecO := take_middle_last o p s (by omega)
  have hdecN := take_middle_last n p s (by omega)
  have hpre : o.take p = n.take p := take_lcpLen_eq o n
  have hsuf : takeLast s o = takeLast s n := by
    rw [← takeLast_drop_eq o _ _ hpo hso, ← takeLast_drop_eq n _ _ hpn hsn]
    exact takeLast_commonSuffix_eq o n p
  -- the buffer once the (possibly absent) delete event has been applied
  have hmid : ∀ st : List Char,
      st = o.take p ++ takeLast s o →
      applyAll st ((if 0 < ((n.take (n.length - s)).drop p).length then
          [{ type := if 1 < ((n.take (n.length - s)).drop p).length then EventType.paste
               else EventType.insert, position := p,
             content := (n.take (n.length - s)).drop p,
             actionDetails := if 1 < ((n.take (n.length - s)).drop p).length then "Paste/Replace"
               else "Type" } ]
        else ([] : List CapturedEvent)).map (eventOfCaptured t)) = n := by
    intro st hst
    have hlenTake : (o.take p).length = p := by simp [hpo]
    by_cases hinsEmpty : 0 < ((n.take (n.length - s)).drop p).length
    · rw [if_pos hinsEmpty]
      simp only [List.map_cons, List.map_nil, applyAll, List.foldl_cons, List.foldl_nil]
      have htype : applyTextEvent st (eventOfCaptured t
          { type := if 1 < ((n.take (n.length - s)).drop p).length then EventType.paste
              else EventType.insert, position := p,
            content := (n.take (n.length - s)).drop p,
            actionDetails := if 1 < ((n.take (n.length - s)).drop p).length then "Paste/Replace"
              else "Type" }) = spliceInsert st (eventOfCaptured t
          { type := if 1 < ((n.take (n.length - s)).drop p).length then EventType.paste
              else EventType.insert, position := p,
            content := (n.take (n.length - s)).drop p,
            actionDetails := if 1 < ((n.take (n.length - s)).drop p).length then "Paste/Replace"
              else "Type" }) := by
        rw [applyTextEvent, if_pos]
        simp only [eventOfCaptured]
        split <;> simp
      rw [htype, spliceInsert_inRange _ _ p rfl (by rw [hst]; simp [hlenTake])]
      rw [hst, show (o.take p ++ takeLast s o).take p = o.take p by
          rw [List.take_append_of_le_length (by omega), List.take_take, Nat.min_self],
        show (o.take p ++ takeLast s o).drop p = takeLast s o by
          rw [List.drop_append_of_le_length (by omega), List.drop_take]
          simp]
      simpa only [eventOfCaptured, Option.getD_some, hpre, hsuf] using hdecN
    · rw [if_neg hinsEmpty]
      have : (n.take (n.length - s)).drop p = [] := by
        cases h : (n.take (n.length - s)).drop p with
        | nil => rfl
        | cons a l => rw [h] at hinsEmpty; simp at hinsEmpty
      rw [this] at hdecN
      simp only [List.map_nil, applyAll, List.foldl_nil]
      rw [hst, hpre, hsuf]
      simpa using hdecN
  simp only [handleChangeEvents, hdel, hins]
  by_cases hdelEmpty : 0 < ((o.take (o.length - s)).drop p).length
  · rw [if_pos hdelEmpty]
    simp only [List.map_append, List.map_cons, List.map_nil, applyAll, List.foldl_append,
      List.foldl_cons, List.foldl_nil]
    have hne : (o.take (o.length - s)).drop p ≠ [] := by
      intro h; rw [h] at hdelEmpty; simp at hdelEmpty
    have htype : applyTextEvent o (eventOfCaptured t
        { type := EventType.delete, position := p, content := (o.take (o.length - s)).drop p,
          actionDetails := "Delete/Backspace" }) = spliceDelete o (eventOfCaptured t
        { type := EventType.delete, position := p, content := (o.take (o.length - s)).drop p,
          actionDetails := "Delete/Backspace" }) := by
      rw [applyTextEvent, if_neg (by simp [eventOfCaptured]),
        if_pos (show (eventOfCaptured t
          { type := EventType.delete, position := p, content := (o.take (o.length - s)).drop p,
            actionDetails := "Delete/Backspace" }).type = EventType.delete from rfl)]
    have hdlen : jsLenOr1 (some ((o.take (o.length - s)).drop p)) =
        ((o.take (o.length - s)).drop p).length := jsLenOr1_some_of_ne_nil _ hne
    have hspan : p + ((o.take (o.length - s)).drop p).length = o.length - s := by
      simp only [List.length_drop, List.length_take]
      omega
    rw [htype, spliceDelete_inRange _ _ p rfl (by simp only [eventOfCaptured]; rw [hdlen]; omega)]
    simp only [eventOfCaptured] at *
    rw [hdlen, hspan, ← takeLast_eq_drop]
    exact hmid _ rfl
  · rw [if_neg hdelEmpty]
    have : (o.take (o.length - s)).drop p = [] := by
      cases h : (o.take (o.length - s)).drop p with
      | nil => rfl
      | cons a l => rw [h] at hdelEmpty; simp at hdelEmpty
    rw [this] at hdecO
    simp only [List.nil_append]
    exact hmid o (by simpa using hdecO.symm)

theorem reconstructAux_append (t : Int) (xs ys : List LogEvent) (cur : List Char)
    (h : ∀ e ∈ xs, e.relativeTime ≤ t) :
    reconstructAux t (xs ++ ys) cur = reconstructAux t ys (applyAll cur xs) := by
  induction xs generalizing cur with
  | nil => simp [applyAll]
  | cons e rest ih =>
    simp only [List.cons_append, reconstructAux, applyAll, List.foldl_cons]
    rw [if_neg (by have := h e (by simp); omega)]
    exact ih (applyTextEvent cur e) (fun e' he' => h e' (by simp [he']))

theorem reconstructAux_stop (t : Int) (evs : List LogEvent) (cur : List Char)
    (h : ∀ e ∈ evs, t < e.relativeTime) :
    reconstructAux t evs cur = cur := by
  cases evs with
  | nil => rfl
  | cons e rest => simp only [reconstructAux]; rw [if_pos (h e (by simp))]

theorem captureLog_relTime_bounds :
    ∀ (snaps : List (List Char)) (prev : List Char) (t0 : Int),
      ∀ e ∈ captureLog prev t0 snaps,
        t0 ≤ e.relativeTime ∧ e.relativeTime < t0 + snaps.length := by
  intro snaps
  induction snaps with
  | nil => intro prev t0 e he; simp [captureLog] at he
  | cons snap rest ih =>
    intro prev t0 e he
    simp only [captureLog, List.mem_append, List.mem_map] at he
    rcases he with ⟨c, _, rfl⟩ | hrec
    · simp only [eventOfCaptured, List.length_cons]
      constructor
      · exact le_refl t0
      · push_cast; omega
    · have := ih snap (t0 + 1) e hrec
      simp only [List.length_cons]
      push_cast
      omega

theorem handleChangeEvents_types (o n : List Char) :
    ∀ c ∈ handleChangeEvents o n,
      c.type = .insert ∨ c.type = .delete ∨ c.type = .paste := by
  intro c hc
  simp only [handleChangeEvents, List.mem_append] at hc
  rcases hc with hdel | hins
  · split at hdel
    · simp only [List.mem_singleton] at hdel; subst hdel; simp
    · simp at hdel
  · split at hins
    · simp only [List.mem_singleton] at hins; subst hins
      split <;> simp
    · simp at hins

theorem relevantEvents_captureLog :
    ∀ (snaps : List (List Char)) (prev : List Char) (t0 : Int),
      relevantEvents (captureLog prev t0 snaps) = captureLog prev t0 snaps := by
  intro snaps
  induction snaps with
  | nil => intro prev t0; rfl
  | cons snap rest ih =>
    intro prev t0
    simp only [captureLog, relevantEvents, List.filter_append]
    rw [show (captureLog snap (t0 + 1) rest).filter isTextEvent = captureLog snap (t0 + 1) rest
        from ih snap (t0 + 1)]
    congr 1
    rw [List.filter_eq_self]
    intro e he
    simp only [List.mem_map] at he
    obtain ⟨c, hc, rfl⟩ := he
    rcases handleChangeEvents_types prev snap c hc with h | h | h <;>
      simp [isTextEvent, eventOfCaptured, h] <;> decide

theorem reconstruct_captureLog_snapshot :
    ∀ (snaps : List (List Char)) (prev : List Char) (t0 : Int) (i : Nat) (tgt : Int),
      i ≤ snaps.length → tgt + 1 = t0 + (i : Int) →
      reconstructAux tgt (captureLog prev t0 snaps) prev = (prev :: snaps).getD i [] := by
  intro snaps
  induction snaps with
  | nil =>
    intro prev t0 i tgt hi _
    simp only [List.length_nil, Nat.le_zero] at hi
    have : i = 0 := hi
    subst this
    rfl
  | cons snap rest ih =>
    intro prev t0 i tgt hi ht
    cases i with
    | zero =>
      rw [reconstructAux_stop]
      · rfl
      · intro e he
        have := (captureLog_relTime_bounds (snap :: rest) prev t0 e he).1
        simp only [Nat.cast_zero] at ht
        omega
    | succ j =>
      simp only [captureLog]
      rw [reconstructAux_append tgt _ _ prev ?hbatch, applyAll_handleChange]
      case hbatch =>
        intro e he
        simp only [List.mem_map] at he
        obtain ⟨c, _, rfl⟩ := he
        simp only [eventOfCaptured]
        push_cast at ht
        omega
      have := ih snap (t0 + 1) j tgt (by simpa using hi) (by push_cast at ht ⊢; omega)
      simpa using this

theorem reconstruct_captureLog_final :
    ∀ (snaps : List (List Char)) (prev : List Char) (t0 : Int) (tgt : Int),
      t0 + (snaps.length : Int) ≤ tgt + 1 →
      reconstructAux tgt (captureLog prev t0 snaps) prev =
        (prev :: snaps).getD snaps.length [] := by
  intro snaps
  induction snaps with
  | nil => intro prev t0 tgt _; rfl
  | cons snap rest ih =>
    intro prev t0 tgt ht
    simp only [captureLog]
    rw [reconstructAux_append tgt _ _ prev ?hbatch, applyAll_handleChange]
    case hbatch =>
      intro e he
      simp only [List.mem_map] at he
      obtain ⟨c, _, rfl⟩ := he
      simp only [eventOfCaptured, List.length_cons] at ht ⊢
      push_cast at ht
      omega
    have := ih snap (t0 + 1) tgt (by simp only [List.length_cons] at ht; push_cast at ht ⊢; omega)
    simpa using this

/-- C1: replaying the log that `handleChange` produces for a chain of
snapshots `s0 = "" → s1 → … → sn` — the edit reaching `si` logged at
relative time `i` — reproduces `si` when replayed at time `i`, and
reproduces `sn` (the final text) when replayed at the final timestamp or any
later time. -/
theorem captureLog_replay_round_trip (snaps : List (List Char)) (i : Nat)
    (h : i ≤ snaps.length) :
    reconstructTextAtTime (captureLog [] 1 snaps) (i : Int) =
      (([] : List Char) :: snaps).getD i [] ∧
    ∀ t : Int, (snaps.length : Int) ≤ t →
      reconstructTextAtTime (captureLog [] 1 snaps) t =
        (([] : List Char) :: snaps).getD snaps.length [] := by
  constructor
  · rw [reconstructTextAtTime, relevantEvents_captureLog]
    exact reconstruct_captureLog_snapshot snaps [] 1 i (i : Int) h (by omega)
  · intro t ht
    rw [reconstructTextAtTime, relevantEvents_captureLog]
    exact reconstruct_captureLog_final snaps [] 1 t (by omega)

/-- C1 witness: the round trip evaluated on the concrete snapshot chain
"" → "ab" → "a" (a paste of "ab" then a one-character delete). -/
theorem captureLog_replay_round_trip_wit :
    reconstructTextAtTime (captureLog [] 1 ["ab".toList, "a".toList]) 1 = "ab".toList ∧
    reconstructTextAtTime (captureLog [] 1 ["ab".toList, "a".toList]) 5 = "a".toList := by
  have h := captureLog_replay_round_trip ["ab".toList, "a".toList] 1 (by decide)
  exact ⟨h.1, h.2 5 (by decide)⟩

/-! ## C7: totality and clamping of replay -/

theorem jsIndex_eq_clamp (len : Nat) (i : Int) (h : 0 ≤ i) :
    jsIndex len i = clampIndex len i := by
  rw [jsIndex, if_neg (by omega)]; rfl

theorem applyTextEvent_eq_clamped (cur : List Char) (e : LogEvent) (h : 0 ≤ e.position) :
    applyTextEvent cur e = applyTextEventClamped cur e := by
  have hn : (0 : Int) ≤ (jsLenOr1 e.content : Int) := Int.natCast_nonneg _
  have h2 : (0 : Int) ≤ e.position + (jsLenOr1 e.content : Int) := by omega
  have h0 : jsIndex cur.length 0 = 0 := by simp [jsIndex]
  rw [applyTextEvent, applyTextEventClamped]
  split
  · rw [spliceInsert, spliceInsertClamped, jsSlice, jsSliceFrom, h0, List.drop_zero,
      jsIndex_eq_clamp _ _ h]
  · split
    · rw [spliceDelete, spliceDeleteClamped, jsSlice, jsSliceFrom, h0, List.drop_zero,
        jsIndex_eq_clamp _ _ h, jsIndex_eq_clamp _ _ h2]
    · rfl

theorem reconstructAux_eq_clampedAux (t : Int) :
    ∀ (evs : List LogEvent) (cur : List Char), (∀ e ∈ evs, 0 ≤ e.position) →
      reconstructAux t evs cur = reconstructClampedAux t evs cur
  | [], _, _ => rfl
  | e :: rest, cur, h => by
    simp only [reconstructAux, reconstructClampedAux]
    split
    · rfl
    · rw [applyTextEvent_eq_clamped cur e (h e (by simp))]
      exact reconstructAux_eq_clampedAux t rest _ (fun e' he' => h e' (by simp [he']))

/-- A corrupted log carrying a negative insert position. -/
def negPositionLog : List LogEvent :=
  [{ type := .insert, relativeTime := 0, position := 0, content := some ['a', 'b'] },
   { type := .insert, relativeTime := 1, position := -1, content := some ['X'] }]

/-- C7 counterexample: on a log with insert position −1 the replay engine
does not clamp to the buffer bounds — JS `slice` interprets the negative
index from the end of the buffer, so the insert lands one character before
the end ("aXb"), where clamping into `[0, length]` would put it at the
start ("Xab"). -/
theorem replay_negative_position_cex :
    reconstructTextAtTime negPositionLog 10 ≠ reconstructClamped negPositionLog 10 ∧
    reconstructTextAtTime negPositionLog 10 = "aXb".toList ∧
    reconstructClamped negPositionLog 10 = "Xab".toList := by
  refine ⟨by decide, by decide, by decide⟩

/-- C7 (amended): replay is total — a plain function of the log and the
target time — and for every log whose positions are non-negative (delete
lengths included, which are non-negative by construction) it behaves exactly
like the clamped replay: positions and delete ranges beyond the buffer end
are clamped to the bounds.  Negative positions are instead interpreted as
JS slice offsets from the end of the buffer (see the counterexample). -/
theorem replay_total_and_clamps (events : List LogEvent) (t : Int)
    (h : ∀ e ∈ events, 0 ≤ e.position) :
    reconstructTextAtTime events t = reconstructClamped events t := by
  rw [reconstructTextAtTime, reconstructClamped]
  exact reconstructAux_eq_clampedAux t _ _ (fun e he => h e (List.mem_of_mem_filter he))

/-- A log whose second insert position (99) and delete range fall beyond the
buffer end. -/
def overEndLog : List LogEvent :=
  [{ type := .insert, relativeTime := 0, position := 0, content := some ['a', 'b'] },
   { type := .insert, relativeTime := 1, position := 99, content := some ['X'] },
   { type := .delete, relativeTime := 2, position := 1, content := some ['q', 'r', 's', 't'] }]

/-- C7 witness: the amended theorem applied to a concrete log with
out-of-range (non-negative) indices. -/
theorem replay_total_and_clamps_wit :
    reconstructTextAtTime overEndLog 10 = reconstructClamped overEndLog 10 :=
  replay_total_and_clamps overEndLog 10 (by decide)

/-! ## Segmentation pipeline (`AnalysisDashboard.calculateMetrics`) -/

inductive DelKind where
  | Typo | Revision
deriving DecidableEq, Repr

inductive PauseLoc where
  | Start | Paragraph | Sentence | Word | MidWord
deriving DecidableEq, Repr

inductive InsLevel where
  | Sentence | Paragraph
deriving DecidableEq, Repr

structure PauseInfo where
  id : String
  duration : Int
  startTime : Int
  context : List Char
  locationType : PauseLoc
deriving DecidableEq, Repr

structure DeletionGroup where
  id : String
  type : DelKind
  content : List Char
  replacement : Option (List Char) := none
  count : Nat
  time : Int
  position : Int
deriving DecidableEq, Repr

structure InsertionGroup where
  id : String
  content : List Char
  time : Int
  count : Nat
  level : InsLevel
deriving DecidableEq, Repr

/-- The mutable state of one `calculateMetrics` pass.  The source's
`lastDeletionGroup` variable aliases the group object most recently pushed
onto `deletionGroups`; writing through the alias mutates that entry, so it
is embedded as an index into `deletionGroups`. -/
structure MetricsState where
  pauses : List PauseInfo := []
  deletionGroups : List DeletionGroup := []
  insertionGroups : List InsertionGroup := []
  currentText : List Char := []
  deletionBuffer : List LogEvent := []
  insertionBuffer : List LogEvent := []
  replacementBuffer : List LogEvent := []
  lastDeletionGroup : Option Nat := none
  isTrackingReplacement : Bool := false
deriving DecidableEq, Repr

/-- The `events.map(e => e.content).join('')` of the source: JS `join` renders an `undefined`
element as the empty string. -/
def joinContents (events : List LogEvent) : List Char :=
  (events.map (fun e => e.content.getD [])).flatten

/-- The `flushReplacement` helper: when a deletion group is being tracked and the
replacement buffer is non-empty, record the joined buffer contents in that
group's `replacement` field; then reset the tracking state. -/
def flushReplacement (st : MetricsState) : MetricsState :=
  let groups :=
    match st.lastDeletionGroup with
    | some idx =>
      if st.replacementBuffer.length > 0 then
        match st.deletionGroups.get? idx with
        | some g =>
          st.deletionGroups.set idx { g with replacement := some (joinContents st.replacementBuffer) }
        | none => st.deletionGroups
      else st.deletionGroups
    | none => st.deletionGroups
  { st with deletionGroups := groups, lastDeletionGroup := none,
            isTrackingReplacement := false, replacementBuffer := [] }

/-- The `totalChars` of `flushDeletions`:
`reduce((acc, e) => acc + (e.content?.length || 1), 0)`. -/
def totalDeletedChars (buffer : List LogEvent) : Nat :=
  buffer.foldl (fun acc e => acc + jsLenOr1 e.content) 0

/-- The deletion group `flushDeletions` builds from a non-empty buffer. -/
def mkDeletionGroup : List LogEvent → Option DeletionGroup
  | [] => none
  | firstEvent :: rest =>
    some { id := firstEvent.id,
           type := if totalDeletedChars (firstEvent :: rest) < 3 then .Typo else .Revision,
           content := joinContents (firstEvent :: rest),
           count := (firstEvent :: rest).length,
           time := firstEvent.relativeTime,
           position := firstEvent.position }

def flushDeletions (st : MetricsState) : MetricsState :=
  match mkDeletionGroup st.deletionBuffer with
  | none => st
  | some newGroup =>
    { st with deletionGroups := st.deletionGroups ++ [newGroup],
              lastDeletionGroup := some st.deletionGroups.length,
              deletionBuffer := [] }

def flushInsertions (st : MetricsState) : MetricsState :=
  match st.insertionBuffer with
  | [] => st
  | firstEvent :: _ =>
    let combinedContent := joinContents st.insertionBuffer
    let level : InsLevel :=
      if combinedContent.contains '\n' || decide (combinedContent.length > 50) then .Paragraph
      else .Sentence
    let newGroup : InsertionGroup :=
      { id := firstEvent.id, content := combinedContent, time := firstEvent.relativeTime,
        count := st.insertionBuffer.length, level := level }
    { st with insertionGroups := st.insertionGroups ++ [newGroup], insertionBuffer := [] }

/-- The `isSequential` helper: an empty buffer accepts anything; a delete extends when
its absolute timestamp is within 2000 ms of the previous buffered event's;
an insert extends when its position equals the previous event's position
plus that event's content length (`content?.length || 1`). -/
def isSequential (buffer : List LogEvent) (current : LogEvent) : Bool :=
  match buffer.getLast? with
  | none => true
  | some last =>
    if current.type = .delete then
      decide (current.timestamp - last.timestamp < 2000)
    else
      decide (current.position = last.position + (jsLenOr1 last.content : Int))

/-- The `↵` substitution and context extraction of the pause recorder:
`currentText.slice(-20).replace(/\n/g, '↵')`, falling back to
"(Start of doc)" for an empty context, with the location classified from
`currentText.slice(-1)`. -/
def mkPauseInfo (currentText : List Char) (event : LogEvent) : PauseInfo :=
  let lastFewChars := (jsSliceFrom currentText (-20)).map (fun c => if c = '\n' then '↵' else c)
  let lastChar := jsSliceFrom currentText (-1)
  let locType : PauseLoc :=
    if currentText.length = 0 then .Start
    else if lastChar = ['\n'] then .Paragraph
    else if lastChar = ['.'] ∨ lastChar = ['?'] ∨ lastChar = ['!'] then .Sentence
    else if lastChar = [' '] then .Word
    else .MidWord
  { id := event.id, duration := event.pauseBefore,
    startTime := event.relativeTime - event.pauseBefore,
    context := if lastFewChars = [] then "(Start of doc)".toList else lastFewChars,
    locationType := locType }

/-- Step 1 of the per-event processing: record a `PauseInfo` when
`pauseBefore > 2000`, from the buffer before this event's own change. -/
def recordPause (st : MetricsState) (event : LogEvent) : MetricsState :=
  if event.pauseBefore > 2000 then
    { st with pauses := st.pauses ++ [mkPauseInfo st.currentText event] }
  else st

/-- The `isReplacementStart` test: a deletion group is pending, this
insert's position equals that group's position, and
`event.timestamp - (group.time + group.count * 100) < 5000` (the source
compares the event's absolute timestamp against the group's relative
`time`). -/
def isReplacementStart (st : MetricsState) (event : LogEvent) : Bool :=
  match st.lastDeletionGroup with
  | some idx =>
    match st.deletionGroups.get? idx with
    | some g =>
      decide (event.position = g.position) &&
        decide (event.timestamp - (g.time + (g.count : Int) * 100) < 5000)
    | none => false
  | none => false

/-- Step 2 of the per-event processing: route the event by type, maintain
the three pending buffers and apply the event's text change. -/
def trackEvent (st : MetricsState) (event : LogEvent) : MetricsState :=
  if event.type = .insert ∨ event.type = .paste then
    let st := flushDeletions st
    let st :=
      if isReplacementStart st event ||
          (st.isTrackingReplacement && isSequential st.replacementBuffer event) then
        { st with isTrackingReplacement := true,
                  replacementBuffer := st.replacementBuffer ++ [event] }
      else
        let st := flushReplacement st
        if event.position < (st.currentText.length : Int) then
          if isSequential st.insertionBuffer event then
            { st with insertionBuffer := st.insertionBuffer ++ [event] }
          else
            let st := flushInsertions st
            { st with insertionBuffer := st.insertionBuffer ++ [event] }
        else flushInsertions st
    { st with currentText := spliceInsert st.currentText event }
  else if event.type = .delete then
    let st := flushInsertions st
    let st := flushReplacement st
    let st :=
      if isSequential st.deletionBuffer event then
        { st with deletionBuffer := st.deletionBuffer ++ [event] }
      else
        let st := flushDeletions st
        { st with deletionBuffer := st.deletionBuffer ++ [event] }
    { st with currentText := spliceDelete st.currentText event }
  else
    flushReplacement (flushInsertions (flushDeletions st))

def metricsStep (st : MetricsState) (event : LogEvent) : MetricsState :=
  trackEvent (recordPause st event) event

/-- The final reclassification pass over insertion groups (80-character
cutoff). -/
def refineInsertion (g : InsertionGroup) : InsertionGroup :=
  { g with level :=
      if g.content.contains '\n' || decide (g.content.length > 80) then .Paragraph
      else .Sentence }

/-- The `calculateMetrics` pass: one left-to-right pass over the events, the final
unconditional flushes, and the reclassification pass. -/
def calculateMetrics (session : WritingSession) : MetricsState :=
  let st := session.events.foldl metricsStep {}
  let st := flushDeletions st
  let st := flushInsertions st
  let st := flushReplacement st
  { st with insertionGroups := st.insertionGroups.map refineInsertion }

/-! ### What the pass does to `pauses` and `currentText` -/

theorem flushDeletions_pauses (st : MetricsState) : (flushDeletions st).pauses = st.pauses := by
  cases h : mkDeletionGroup st.deletionBuffer <;> simp [flushDeletions, h]

theorem flushDeletions_currentText (st : MetricsState) :
    (flushDeletions st).currentText = st.currentText := by
  cases h : mkDeletionGroup st.deletionBuffer <;> simp [flushDeletions, h]

theorem flushInsertions_pauses (st : MetricsState) : (flushInsertions st).pauses = st.pauses := by
  cases h : st.insertionBuffer <;> simp [flushInsertions, h]

theorem flushInsertions_currentText (st : MetricsState) :
    (flushInsertions st).currentText = st.currentText := by
  cases h : st.insertionBuffer <;> simp [flushInsertions, h]

theorem flushReplacement_pauses (st : MetricsState) :
    (flushReplacement st).pauses = st.pauses := rfl

theorem flushReplacement_currentText (st : MetricsState) :
    (flushReplacement st).currentText = st.currentText := rfl

theorem trackEvent_pauses (st : MetricsState) (e : LogEvent) :
    (trackEvent st e).pauses = st.pauses := by
  simp only [trackEvent]
  split
  · split
    · simp [flushDeletions_pauses]
    · split
      · split <;>
          simp [flushDeletions_pauses, flushReplacement_pauses, flushInsertions_pauses]
      · simp [flushDeletions_pauses, flushReplacement_pauses, flushInsertions_pauses]
  · split
    · split <;>
        simp [flushDeletions_pauses, flushReplacement_pauses, flushInsertions_pauses]
    · simp [flushDeletions_pauses, flushReplacement_pauses, flushInsertions_pauses]

theorem trackEvent_currentText (st : MetricsState) (e : LogEvent) :
    (trackEvent st e).currentText = applyTextEvent st.currentText e := by
  by_cases h1 : e.type = .insert ∨ e.type = .paste
  · simp only [trackEvent, applyTextEvent, if_pos h1]
    congr 1
    split
    · simp [flushDeletions_currentText]
    · split
      · split <;>
          simp [flushDeletions_currentText, flushReplacement_currentText,
            flushInsertions_currentText]
      · simp [flushDeletions_currentText, flushReplacement_currentText,
          flushInsertions_currentText]
  · by_cases h2 : e.type = .delete
    · simp only [trackEvent, applyTextEvent, if_neg h1, if_pos h2]
      congr 1
      split <;>
        simp [flushDeletions_currentText, flushReplacement_currentText,
          flushInsertions_currentText]
    · simp only [trackEvent, applyTextEvent, if_neg h1, if_neg h2]
      simp [flushDeletions_currentText, flushReplacement_currentText,
        flushInsertions_currentText]

theorem recordPause_currentText (st : MetricsState) (e : LogEvent) :
    (recordPause st e).currentText = st.currentText := by
  rw [recordPause]; split <;> rfl

theorem recordPause_pauses (st : MetricsState) (e : LogEvent) :
    (recordPause st e).pauses =
      st.pauses ++ (if e.pauseBefore > 2000 then [mkPauseInfo st.currentText e] else []) := by
  rw [recordPause]; split <;> simp

theorem metricsStep_pauses (st : MetricsState) (e : LogEvent) :
    (metricsStep st e).pauses =
      st.pauses ++ (if e.pauseBefore > 2000 then [mkPauseInfo st.currentText e] else []) := by
  rw [metricsStep, trackEvent_pauses, recordPause_pauses]

theorem metricsStep_currentText (st : MetricsState) (e : LogEvent) :
    (metricsStep st e).currentText = applyTextEvent st.currentText e := by
  rw [metricsStep, trackEvent_currentText, recordPause_currentText]

/-- Claim-side reference for C6: the pauses the spec describes — one
`PauseInfo` for exactly the events whose `pauseBefore` strictly exceeds
2000 ms, with the context taken from the running buffer before the event's
own text change is applied. -/
def pausesOnly : List Char → List LogEvent → List PauseInfo
  | _, [] => []
  | buf, e :: rest =>
    (if e.pauseBefore > 2000 then [mkPauseInfo buf e] else []) ++
      pausesOnly (applyTextEvent buf e) rest

theorem foldl_metricsStep_pauses :
    ∀ (events : List LogEvent) (st : MetricsState),
      (events.foldl metricsStep st).pauses = st.pauses ++ pausesOnly st.currentText events
  | [], st => by simp [pausesOnly]
  | e :: rest, st => by
    simp only [List.foldl_cons, pausesOnly]
    rw [foldl_metricsStep_pauses rest (metricsStep st e), metricsStep_pauses,
      metricsStep_currentText, List.append_assoc]

/-- C6: `calculateMetrics` records a `PauseInfo` for an event exactly when
its `pauseBefore` strictly exceeds 2000 ms, with the context read from the
reconstructed buffer before the event's own text change; a gap of exactly
2000 ms records nothing and a gap of 2001 ms records one pause of that
duration. -/
theorem pauses_exactly_over_2000 (session : WritingSession) :
    (calculateMetrics session).pauses = pausesOnly [] session.events ∧
    (calculateMetrics { events := [
        { type := .insert, relativeTime := 0, position := 0, content := some ['a'],
          pauseBefore := 0 },
        { type := .insert, relativeTime := 2000, position := 1, content := some ['b'],
          pauseBefore := 2000 }] }).pauses = [] ∧
    (calculateMetrics { events := [
        { type := .insert, relativeTime := 0, position := 0, content := some ['a'],
          pauseBefore := 0 },
        { type := .insert, relativeTime := 2001, position := 1, content := some ['b'],
          pauseBefore := 2001 }] }).pauses =
      [{ id := "", duration := 2001, startTime := 0, context := ['a'],
         locationType := .MidWord }] := by
  refine ⟨?_, by decide, by decide⟩
  show ({ (flushReplacement (flushInsertions (flushDeletions
      (session.events.foldl metricsStep {})))) with
    insertionGroups := _ } : MetricsState).pauses = _
  simp only [flushReplacement_pauses, flushInsertions_pauses, flushDeletions_pauses]
  simpa using foldl_metricsStep_pauses session.events {}

/-! ### C3: the replacement window mixes absolute and relative clocks -/

/-- Claim C3's scenario recorded by the recorder at a realistic absolute
start time (10000): type "cat", pause 3000 ms, delete the "t", immediately
retype "dog" at the same position.  `timestamp = 10000 + relativeTime`. -/
def scenarioCAbsolute : WritingSession :=
  { events := [
      { type := .insert, timestamp := 10000, relativeTime := 0, pauseBefore := 0,
        position := 0, content := some ['c'] },
      { type := .insert, timestamp := 10100, relativeTime := 100, pauseBefore := 100,
        position := 1, content := some ['a'] },
      { type := .insert, timestamp := 10200, relativeTime := 200, pauseBefore := 100,
        position := 2, content := some ['t'] },
      { type := .delete, timestamp := 13200, relativeTime := 3200, pauseBefore := 3000,
        position := 2, content := some ['t'] },
      { type := .insert, timestamp := 13300, relativeTime := 3300, pauseBefore := 100,
        position := 2, content := some ['d'] },
      { type := .insert, timestamp := 13400, relativeTime := 3400, pauseBefore := 100,
        position := 3, content := some ['o'] },
      { type := .insert, timestamp := 13500, relativeTime := 3500, pauseBefore := 100,
        position := 4, content := some ['g'] }] }

/-- The same scenario with the session started at absolute time 0, the one
case in which `timestamp` and `relativeTime` coincide. -/
def scenarioCRelative : WritingSession :=
  { events := [
      { type := .insert, timestamp := 0, relativeTime := 0, pauseBefore := 0,
        position := 0, content := some ['c'] },
      { type := .insert, timestamp := 100, relativeTime := 100, pauseBefore := 100,
        position := 1, content := some ['a'] },
      { type := .insert, timestamp := 200, relativeTime := 200, pauseBefore := 100,
        position := 2, content := some ['t'] },
      { type := .delete, timestamp := 3200, relativeTime := 3200, pauseBefore := 3000,
        position := 2, content := some ['t'] },
      { type := .insert, timestamp := 3300, relativeTime := 3300, pauseBefore := 100,
        position := 2, content := some ['d'] },
      { type := .insert, timestamp := 3400, relativeTime := 3400, pauseBefore := 100,
        position := 3, content := some ['o'] },
      { type := .insert, timestamp := 3500, relativeTime := 3500, pauseBefore := 100,
        position := 4, content := some ['g'] }] }

/-- C3 (code bug): the replacement-window test compares the insert's
absolute `timestamp` against the deletion group's relative `time` plus
100 ms per deleted event, so in a session recorded at any realistic wall
clock (here startTime 10000, hence `13300 - (3200 + 100) = 10000 ≥ 5000`)
the claimed scenario yields a Typo group with no `replacement` and the
"dog" keystrokes are treated as ordinary linear typing — while the very
same relative timings with the clocks coinciding (startTime 0) yield the
claimed group with `replacement = "dog"`. -/
theorem replacement_window_unit_mismatch :
    (calculateMetrics scenarioCAbsolute).deletionGroups =
      [{ id := "", type := .Typo, content := ['t'], replacement := none, count := 1,
         time := 3200, position := 2 }] ∧
    (calculateMetrics scenarioCAbsolute).pauses =
      [{ id := "", duration := 3000, startTime := 200, context := ['c', 'a', 't'],
         locationType := .MidWord }] ∧
    (calculateMetrics scenarioCAbsolute).insertionGroups = [] ∧
    (calculateMetrics scenarioCRelative).deletionGroups =
      [{ id := "", type := .Typo, content := ['t'], replacement := some ['d', 'o', 'g'],
         count := 1, time := 3200, position := 2 }] ∧
    (calculateMetrics scenarioCRelative).pauses =
      [{ id := "", duration := 3000, startTime := 200, context := ['c', 'a', 't'],
         locationType := .MidWord }] ∧
    (calculateMetrics scenarioCRelative).insertionGroups = [] := by
  refine ⟨by decide, by decide, by decide, by decide, by decide, by decide⟩

/-! ### C5: the Typo/Revision boundary -/

/-- Claim-side total for C5: "sum over buffered delete events of content
length, or 1 when content is absent" — an empty-but-present content string
counts 0 here, where the code's `content?.length || 1` counts 1. -/
def claimTotalDeleted (buffer : List LogEvent) : Nat :=
  buffer.foldl (fun acc e => acc + (match e.content with | some c => c.length | none => 1)) 0

/-- Three delete events whose content is present but empty. -/
def emptyContentDeletes : List LogEvent :=
  [{ type := .delete, relativeTime := 0, position := 0, content := some [] },
   { type := .delete, timestamp := 100, relativeTime := 100, position := 0, content := some [] },
   { type := .delete, timestamp := 200, relativeTime := 200, position := 0, content := some [] }]

/-- C5 counterexample: on a buffer of three empty-content delete events the
claim's total is 0 (< 3, so it predicts Typo), but the code counts each
such event as 1 deleted character (`content?.length || 1`) and classifies
the group Revision. -/
theorem typo_boundary_empty_content_cex :
    (mkDeletionGroup emptyContentDeletes).map DeletionGroup.type = some DelKind.Revision ∧
    claimTotalDeleted emptyContentDeletes < 3 := by
  exact ⟨by decide, by decide⟩

def twoCharDeleteBuffer : List LogEvent :=
  [{ type := .delete, relativeTime := 0, position := 1, content := some ['a', 'b'] }]

def threeCharDeleteBuffer : List LogEvent :=
  [{ type := .delete, relativeTime := 0, position := 1, content := some ['a', 'b', 'c'] }]

/-- C5 (amended): a deletion group flushed from a non-empty buffer is Typo
exactly when the total deleted characters are fewer than 3 and Revision
exactly when 3 or more, where each buffered event contributes its content
length, or 1 when the content is absent **or empty** (`content?.length || 1`);
a group of exactly 2 deleted characters is Typo and one of exactly 3 is
Revision. -/
theorem deletionGroup_typo_boundary (buffer : List LogEvent) (g : DeletionGroup)
    (h : mkDeletionGroup buffer = some g) :
    (g.type = .Typo ↔ totalDeletedChars buffer < 3) ∧
    (g.type = .Revision ↔ 3 ≤ totalDeletedChars buffer) ∧
    (mkDeletionGroup twoCharDeleteBuffer).map DeletionGroup.type = some DelKind.Typo ∧
    (mkDeletionGroup threeCharDeleteBuffer).map DeletionGroup.type = some DelKind.Revision := by
  refine ?_
  cases buffer with
  | nil => simp [mkDeletionGroup] at h
  | cons first rest =>
    simp only [mkDeletionGroup, Option.some.injEq] at h
    subst h
    refine ⟨?_, ?_, by decide, by decide⟩
    · by_cases htot : totalDeletedChars (first :: rest) < 3 <;> simp [htot]
    · by_cases htot : totalDeletedChars (first :: rest) < 3
      all_goals simp [htot]
      all_goals omega

/-- C5 witness: the amended boundary applied to the concrete 2-character
buffer. -/
theorem deletionGroup_typo_boundary_wit :
    (({ id := "", type := DelKind.Typo, content := ['a', 'b'], replacement := none,
        count := 1, time := 0, position := 1 } : DeletionGroup).type = DelKind.Typo ↔
      totalDeletedChars twoCharDeleteBuffer < 3) ∧
    (({ id := "", type := DelKind.Typo, content := ['a', 'b'], replacement := none,
        count := 1, time := 0, position := 1 } : DeletionGroup).type = DelKind.Revision ↔
      3 ≤ totalDeletedChars twoCharDeleteBuffer) := by
  have h := deletionGroup_typo_boundary twoCharDeleteBuffer
    { id := "", type := DelKind.Typo, content := ['a', 'b'], replacement := none,
      count := 1, time := 0, position := 1 } (by decide)
  exact ⟨h.1, h.2.1⟩

/-! ### C9: a present-but-empty delete content removes one character -/

/-- A delete event carrying the given position and content. -/
def delEvent (pos : Int) (c : Option (List Char)) : LogEvent :=
  { type := .delete, relativeTime := 0, position := pos, content := c }

/-- C9: a delete event whose content is present but empty behaves exactly
like one with absent content — both the replay engine's fold and the
segmentation pipeline's buffer remove 1 character at the event's position,
not 0. -/
theorem delete_empty_content_removes_one (cur : List Char) (st : MetricsState) (pos : Nat)
    (h1 : pos < cur.length) (h2 : pos < st.currentText.length) :
    (applyTextEvent cur (delEvent pos (some [])) = applyTextEvent cur (delEvent pos none) ∧
      applyTextEvent cur (delEvent pos (some [])) = cur.take pos ++ cur.drop (pos + 1)) ∧
    ((metricsStep st (delEvent pos (some []))).currentText =
        (metricsStep st (delEvent pos none)).currentText ∧
      (metricsStep st (delEvent pos (some []))).currentText =
        st.currentText.take pos ++ st.currentText.drop (pos + 1)) := by
  have key : ∀ (l : List Char) (p : Nat) (c : Option (List Char)), p < l.length →
      jsLenOr1 c = 1 → applyTextEvent l (delEvent p c) = l.take p ++ l.drop (p + 1) := by
    intro l p c hp hc
    rw [applyTextEvent, if_neg (by simp [delEvent]),
      if_pos (show (delEvent p c).type = .delete from rfl),
      spliceDelete_inRange l (delEvent p c) p rfl
        (by show p + jsLenOr1 c ≤ l.length; omega)]
    show List.take p l ++ List.drop (p + jsLenOr1 c) l = List.take p l ++ List.drop (p + 1) l
    rw [hc]
  refine ⟨⟨?_, key cur pos (some []) h1 rfl⟩, ?_, ?_⟩
  · rw [key cur pos (some []) h1 rfl, key cur pos none h1 rfl]
  · rw [metricsStep_currentText, metricsStep_currentText,
      key st.currentText pos (some []) h2 rfl, key st.currentText pos none h2 rfl]
  · rw [metricsStep_currentText, key st.currentText pos (some []) h2 rfl]

/-- C9 witness: the empty-content delete evaluated on the concrete buffer
"ab" at position 1. -/
theorem delete_empty_content_removes_one_wit :
    (applyTextEvent ['a', 'b'] (delEvent 1 (some [])) =
        applyTextEvent ['a', 'b'] (delEvent 1 none) ∧
      applyTextEvent ['a', 'b'] (delEvent 1 (some [])) = ['a']) ∧
    ((metricsStep { currentText := ['a', 'b'] } (delEvent 1 (some []))).currentText =
        (metricsStep { currentText := ['a', 'b'] } (delEvent 1 none)).currentText ∧
      (metricsStep { currentText := ['a', 'b'] } (delEvent 1 (some []))).currentText = ['a']) :=
  delete_empty_content_removes_one ['a', 'b'] { currentText := ['a', 'b'] } 1
    (by decide) (by decide)

/-! ## Recorder (`useWritingRecorder`) -/

inductive SessionStatus where
  | IDLE | RECORDING | PAUSED | FINISHED
deriving DecidableEq, Repr

/-- The recorder's mutable state: its status and the three refs
(`eventsRef`, `startTimeRef`, `lastEventTimeRef`).  The `text` and
`studentName` fields live in the editor and are passed to `stopSession`
directly. -/
structure RecorderState where
  status : SessionStatus := .IDLE
  events : List LogEvent := []
  startTime : Int := 0
  lastEventTime : Int := 0
deriving DecidableEq, Repr

/-- The `logEvent` call at wall-clock time `now`: refused unless recording (or
paused, and then only for focus/blur or the restore marker); otherwise the
event is appended with `relativeTime = now - startTime` and `pauseBefore =
now - lastEventTime`, and `lastEventTime` becomes `now`.  The uuid `id` is
modelled as the empty string. -/
def logEventStep (st : RecorderState) (now : Int) (ty : EventType) (pos : Int)
    (content : Option (List Char)) (actionDetails : Option String) : RecorderState :=
  if st.status ≠ .RECORDING ∧ st.status ≠ .PAUSED then st
  else if st.status = .PAUSED ∧ ty ≠ .focus ∧ ty ≠ .blur ∧
      actionDetails ≠ some "Session Restored" then st
  else
    { st with
      events := st.events ++ [{
        id := "", type := ty, timestamp := now, relativeTime := now - st.startTime,
        position := pos, content := content, pauseBefore := now - st.lastEventTime,
        actionDetails := actionDetails }],
      lastEventTime := now }

/-- The `startSession` call: reset the refs, switch to RECORDING and log the initial
focus event. -/
def startSessionStep (st : RecorderState) (now : Int) : RecorderState :=
  logEventStep
    { st with events := [], startTime := now, lastEventTime := now, status := .RECORDING }
    now .focus 0 (some []) none

def pauseSessionStep (st : RecorderState) : RecorderState :=
  if st.status = .RECORDING then { st with status := .PAUSED } else st

/-- The `resumeSession` call: note that it resets `lastEventTimeRef` to `now`
without logging an event. -/
def resumeSessionStep (st : RecorderState) (now : Int) : RecorderState :=
  if st.status = .PAUSED then { st with lastEventTime := now, status := .RECORDING } else st

def stopSessionStep (st : RecorderState) : RecorderState :=
  if st.status = .IDLE then st else { st with status := .FINISHED }

/-- The session `stopSession` returns at wall-clock time `now` (`null` when
idle); `text` and `studentName` are the editor-owned values it closes
over. -/
def stopSession (st : RecorderState) (now : Int) (studentName : String) (text : List Char) :
    Option WritingSession :=
  if st.status = .IDLE then none
  else some
    { id := "", studentName := studentName, startTime := st.startTime, endTime := now,
      events := st.events, finalText := text,
      totalActiveTime := now - st.startTime, totalPauseTime := 0 }

/-- One recorder API call, tagged with the wall-clock time at which it
runs. -/
inductive RecorderOp where
  | start (t : Int)
  | log (t : Int) (ty : EventType) (pos : Int) (content : Option (List Char))
      (actionDetails : Option String)
  | pause (t : Int)
  | resume (t : Int)
  | stop (t : Int)
deriving DecidableEq, Repr

def RecorderOp.time : RecorderOp → Int
  | .start t | .log t _ _ _ _ | .pause t | .resume t | .stop t => t

def RecorderOp.isResume : RecorderOp → Bool
  | .resume _ => true
  | _ => false

def recorderStep (st : RecorderState) : RecorderOp → RecorderState
  | .start t => startSessionStep st t
  | .log t ty pos content ad => logEventStep st t ty pos content ad
  | .pause _ => pauseSessionStep st
  | .resume t => resumeSessionStep st t
  | .stop _ => stopSessionStep st

/-- The recorder state after a sequence of API calls, from the initial
idle state. -/
def runRecorder (ops : List RecorderOp) : RecorderState :=
  ops.foldl recorderStep {}

/-- Adjacent-pair condition over a stored event list. -/
def eventsChain (P : LogEvent → LogEvent → Prop) : List LogEvent → Prop
  | [] => True
  | [_] => True
  | a :: b :: rest => P a b ∧ eventsChain P (b :: rest)

def decEventsChain (P : LogEvent → LogEvent → Prop) [DecidableRel P] :
    ∀ l, Decidable (eventsChain P l)
  | [] => isTrue trivial
  | [_] => isTrue trivial
  | a :: b :: rest =>
    match inferInstanceAs (Decidable (P a b)), decEventsChain P (b :: rest) with
    | isTrue h1, isTrue h2 => isTrue ⟨h1, h2⟩
    | isFalse h1, _ => isFalse fun h => h1 h.1
    | _, isFalse h2 => isFalse fun h => h2 h.2

instance (P : LogEvent → LogEvent → Prop) [DecidableRel P] (l : List LogEvent) :
    Decidable (eventsChain P l) :=
  decEventsChain P l

/-- Claim-side property for C4: `relativeTime` is non-decreasing. -/
def relTimesMonotone (events : List LogEvent) : Prop :=
  eventsChain (fun a b => a.relativeTime ≤ b.relativeTime) events

/-- Claim-side property for C4: each event's `pauseBefore` equals the
difference of consecutive `relativeTime`s. -/
def pauseBeforeConsistent (events : List LogEvent) : Prop :=
  eventsChain (fun a b => b.pauseBefore = b.relativeTime - a.relativeTime) events

/-- The (weaker) relation that actually holds in general: a pause/resume
between two events shrinks the recorded `pauseBefore` below the
relative-time difference. -/
def pauseBeforeBounded (events : List LogEvent) : Prop :=
  eventsChain (fun a b => b.pauseBefore ≤ b.relativeTime - a.relativeTime) events

/-- Non-decreasing wall-clock times for an op sequence. -/
def opTimesMonotone : List RecorderOp → Prop
  | [] => True
  | [_] => True
  | a :: b :: rest => a.time ≤ b.time ∧ opTimesMonotone (b :: rest)

def decOpTimesMonotone : ∀ ops, Decidable (opTimesMonotone ops)
  | [] => isTrue trivial
  | [_] => isTrue trivial
  | a :: b :: rest =>
    match inferInstanceAs (Decidable (a.time ≤ b.time)), decOpTimesMonotone (b :: rest) with
    | isTrue h1, isTrue h2 => isTrue ⟨h1, h2⟩
    | isFalse h1, _ => isFalse fun h => h1 h.1
    | _, isFalse h2 => isFalse fun h => h2 h.2

instance (ops : List RecorderOp) : Decidable (opTimesMonotone ops) :=
  decOpTimesMonotone ops

/-! ### C4: what the recorder guarantees about its stored log -/

/-- The relative time of the last stored event (0 with no events). -/
def relLast (events : List LogEvent) : Int :=
  match events.getLast? with
  | some e => e.relativeTime
  | none => 0

theorem relLast_eq (l : List LogEvent) (x : LogEvent) (h : l.getLast? = some x) :
    relLast l = x.relativeTime := by
  simp [relLast, h]

theorem relLast_append (l : List LogEvent) (e : LogEvent) :
    relLast (l ++ [e]) = e.relativeTime := by
  simp [relLast, List.getLast?_concat]

theorem eventsChain_append (P : LogEvent → LogEvent → Prop) :
    ∀ (l : List LogEvent) (e : LogEvent), eventsChain P l →
      (∀ x, l.getLast? = some x → P x e) → eventsChain P (l ++ [e])
  | [], e, _, _ => trivial
  | [a], e, _, he => ⟨he a rfl, trivial⟩
  | a :: b :: rest, e, h, he =>
    ⟨h.1, eventsChain_append P (b :: rest) e h.2 (fun x hx => he x (by simpa using hx))⟩

theorem head?_append_of_ne_nil (l : List LogEvent) (e : LogEvent) (h : l ≠ []) :
    (l ++ [e]).head? = l.head? := by
  cases l with
  | nil => exact absurd rfl h
  | cons a rest => rfl

/-- The invariant maintained on a started recorder, relative to the current
wall clock `now`. -/
structure RecInvActive (st : RecorderState) (now : Int) : Prop where
  lastLe : st.lastEventTime ≤ now
  startLast : st.startTime + relLast st.events ≤ st.lastEventTime
  mono : relTimesMonotone st.events
  bounded : pauseBeforeBounded st.events
  headOk : ∀ e, st.events.head? = some e → e.pauseBefore = e.relativeTime
  ne : st.events ≠ []

def RecorderInv (st : RecorderState) (now : Int) : Prop :=
  (st.status = .IDLE ∧ st.events = []) ∨ RecInvActive st now

theorem RecorderInv.relax {st : RecorderState} {now now' : Int}
    (inv : RecorderInv st now) (h : now ≤ now') : RecorderInv st now' := by
  rcases inv with h0 | ha
  · exact Or.inl h0
  · exact Or.inr { ha with lastLe := le_trans ha.lastLe h }

theorem logEventStep_inv {st : RecorderState} {now : Int} (t : Int) (ty : EventType)
    (pos : Int) (content : Option (List Char)) (ad : Option String)
    (inv : RecorderInv st now) (hop : now ≤ t) :
    RecorderInv (logEventStep st t ty pos content ad) t := by
  by_cases hg1 : st.status ≠ .RECORDING ∧ st.status ≠ .PAUSED
  · rw [logEventStep, if_pos hg1]
    exact inv.relax hop
  · by_cases hg2 : st.status = .PAUSED ∧ ty ≠ .focus ∧ ty ≠ .blur ∧
        ad ≠ some "Session Restored"
    · rw [logEventStep, if_neg hg1, if_pos hg2]
      exact inv.relax hop
    · rw [logEventStep, if_neg hg1, if_neg hg2]
      rcases inv with h0 | ha
      · exact absurd (by simp [h0.1]) hg1
      · refine Or.inr ?_
        have hrel : relLast st.events ≤ t - st.startTime := by
          have := ha.startLast
          have := ha.lastLe
          omega
        constructor
        · exact le_refl t
        · simp only [relLast_append]
          omega
        · refine eventsChain_append _ _ _ ha.mono ?_
          intro x hx
          have := relLast_eq st.events x hx
          simp only []
          omega
        · refine eventsChain_append _ _ _ ha.bounded ?_
          intro x hx
          have := relLast_eq st.events x hx
          have := ha.startLast
          have := ha.lastLe
          simp only []
          omega
        · intro e he
          rw [head?_append_of_ne_nil _ _ ha.ne] at he
          exact ha.headOk e he
        · simp

theorem recorderStep_inv {st : RecorderState} {now : Int} (op : RecorderOp)
    (inv : RecorderInv st now) (hop : now ≤ op.time) :
    RecorderInv (recorderStep st op) op.time := by
  cases op with
  | start t =>
    refine Or.inr ?_
    show RecInvActive (startSessionStep st t) t
    have h : startSessionStep st t =
        { status := .RECORDING,
          events := [{ id := "", type := .focus, timestamp := t, relativeTime := t - t,
                       position := 0, content := some [], pauseBefore := t - t,
                       actionDetails := none }],
          startTime := t, lastEventTime := t } := by
      simp [startSessionStep, logEventStep]
    rw [h]
    refine { lastLe := le_refl t, startLast := ?_, mono := trivial,
             bounded := trivial, headOk := ?_, ne := by simp }
    · simp only [relLast, List.getLast?_singleton]
      omega
    · intro e he
      simp only [List.head?_cons, Option.some.injEq] at he
      subst he
      rfl
  | log t ty pos content ad => exact logEventStep_inv t ty pos content ad inv hop
  | pause t =>
    show RecorderInv (pauseSessionStep st) t
    rw [pauseSessionStep]
    split
    · next hR =>
      rcases inv with h0 | ha
      · rw [h0.1] at hR; cases hR
      · exact Or.inr { ha with lastLe := le_trans ha.lastLe hop }
    · exact inv.relax hop
  | resume t =>
    show RecorderInv (resumeSessionStep st t) t
    rw [resumeSessionStep]
    split
    · next hP =>
      rcases inv with h0 | ha
      · rw [h0.1] at hP; cases hP
      · refine Or.inr ?_
        exact { lastLe := le_refl t,
                startLast := le_trans ha.startLast (le_trans ha.lastLe hop),
                mono := ha.mono, bounded := ha.bounded, headOk := ha.headOk, ne := ha.ne }
    · exact inv.relax hop
  | stop t =>
    show RecorderInv (stopSessionStep st) t
    rw [stopSessionStep]
    split
    · exact inv.relax hop
    · next hni =>
      rcases inv with h0 | ha
      · exact absurd h0.1 hni
      · exact Or.inr { ha with lastLe := le_trans ha.lastLe hop }

/-- Wall-clock times of an op list are `≥ now` and non-decreasing. -/
def opsTimesFrom (now : Int) : List RecorderOp → Prop
  | [] => True
  | a :: rest => now ≤ a.time ∧ opsTimesFrom a.time rest

theorem opsTimesFrom_of_monotone :
    ∀ (ops : List RecorderOp) (now : Int), opTimesMonotone ops →
      (∀ a, ops.head? = some a → now ≤ a.time) → opsTimesFrom now ops
  | [], _, _, _ => trivial
  | [a], _, _, h => ⟨h a rfl, trivial⟩
  | a :: b :: rest, now, hm, h =>
    ⟨h a rfl, opsTimesFrom_of_monotone (b :: rest) a.time hm.2
      (fun x hx => by simp only [List.head?_cons, Option.some.injEq] at hx; subst hx; exact hm.1)⟩

theorem runRecorder_inv_aux :
    ∀ (ops : List RecorderOp) (st : RecorderState) (now : Int),
      RecorderInv st now → opsTimesFrom now ops →
      ∃ now', RecorderInv (ops.foldl recorderStep st) now'
  | [], _, now, inv, _ => ⟨now, inv⟩
  | op :: rest, st, _, inv, hops =>
    runRecorder_inv_aux rest (recorderStep st op) op.time
      (recorderStep_inv op inv hops.1) hops.2

/-- The stronger invariant of a resume-free run: `lastEventTime` tracks the
absolute time of the last stored event exactly, so each new event's
`pauseBefore` equals its relative-time distance from the previous event. -/
def RecInvEq (st : RecorderState) : Prop :=
  st.lastEventTime = st.startTime + relLast st.events ∧
  pauseBeforeConsistent st.events

theorem logEventStep_invEq {st : RecorderState} (t : Int) (ty : EventType) (pos : Int)
    (content : Option (List Char)) (ad : Option String) (invEq : RecInvEq st) :
    RecInvEq (logEventStep st t ty pos content ad) := by
  by_cases hg1 : st.status ≠ .RECORDING ∧ st.status ≠ .PAUSED
  · rw [logEventStep, if_pos hg1]; exact invEq
  · by_cases hg2 : st.status = .PAUSED ∧ ty ≠ .focus ∧ ty ≠ .blur ∧
        ad ≠ some "Session Restored"
    · rw [logEventStep, if_neg hg1, if_pos hg2]; exact invEq
    · rw [logEventStep, if_neg hg1, if_neg hg2]
      constructor
      · simp only [relLast_append]
        omega
      · refine eventsChain_append _ _ _ invEq.2 ?_
        intro x hx
        have hr := relLast_eq st.events x hx
        have h1 := invEq.1
        simp only []
        omega

theorem startSessionStep_eq (st : RecorderState) (t : Int) :
    startSessionStep st t =
      { status := .RECORDING,
        events := [{ id := "", type := .focus, timestamp := t, relativeTime := t - t,
                     position := 0, content := some [], pauseBefore := t - t,
                     actionDetails := none }],
        startTime := t, lastEventTime := t } := by
  simp [startSessionStep, logEventStep]

theorem recorderStep_invEq {st : RecorderState} (op : RecorderOp)
    (invEq : RecInvEq st) (hnr : op.isResume = false) :
    RecInvEq (recorderStep st op) := by
  cases op with
  | start t =>
    show RecInvEq (startSessionStep st t)
    rw [startSessionStep_eq]
    constructor
    · simp only [relLast, List.getLast?_singleton]
      omega
    · exact trivial
  | log t ty pos content ad => exact logEventStep_invEq t ty pos content ad invEq
  | pause t =>
    show RecInvEq (pauseSessionStep st)
    rw [pauseSessionStep]
    split
    · exact invEq
    · exact invEq
  | resume t => simp [RecorderOp.isResume] at hnr
  | stop t =>
    show RecInvEq (stopSessionStep st)
    rw [stopSessionStep]
    split
    · exact invEq
    · exact invEq

theorem runRecorder_invEq_aux :
    ∀ (ops : List RecorderOp) (st : RecorderState), RecInvEq st →
      (∀ op ∈ ops, op.isResume = false) → RecInvEq (ops.foldl recorderStep st)
  | [], _, invEq, _ => invEq
  | op :: rest, st, invEq, h =>
    runRecorder_invEq_aux rest (recorderStep st op)
      (recorderStep_invEq op invEq (h op (by simp)))
      (fun o ho => h o (by simp [ho]))

instance (l : List LogEvent) : Decidable (relTimesMonotone l) :=
  @decEventsChain (fun a b => a.relativeTime ≤ b.relativeTime) (fun _ _ => inferInstance) l

instance (l : List LogEvent) : Decidable (pauseBeforeConsistent l) :=
  @decEventsChain (fun a b => b.pauseBefore = b.relativeTime - a.relativeTime)
    (fun _ _ => inferInstance) l

instance (l : List LogEvent) : Decidable (pauseBeforeBounded l) :=
  @decEventsChain (fun a b => b.pauseBefore ≤ b.relativeTime - a.relativeTime)
    (fun _ _ => inferInstance) l

/-- The recorder run used to falsify the unamended claim C4 and to witness
the amended one: start, type a character, pause, resume 800 ms later, type
another character. -/
def resumeOps : List RecorderOp :=
  [.start 0, .log 100 .insert 1 (some ['a']) none, .pause 200, .resume 1000,
   .log 1100 .insert 2 (some ['b']) none]

/-- C4 counterexample: `resumeSession` resets `lastEventTimeRef` without
logging an event, so the event logged after the pause/resume has
`pauseBefore = 100` while its relative-time distance from the previous
event is 1000 — the claimed identity fails (monotonicity still holds). -/
theorem recorder_pauseBefore_resume_cex :
    ¬ pauseBeforeConsistent (runRecorder resumeOps).events ∧
    relTimesMonotone (runRecorder resumeOps).events := by
  exact ⟨by decide, by decide⟩

/-- C4 (amended): for every recorder run driven by a non-decreasing wall
clock, the stored events are in non-decreasing `relativeTime` order, each
event's `pauseBefore` is at most the relative-time difference from its
predecessor, and the first event's `pauseBefore` equals its `relativeTime`
(the time since session start); the exact identity
`pauseBefore[i] = relativeTime[i] - relativeTime[i-1]` holds for every run
that contains no `resumeSession` call — a resume excludes the paused span
from the next event's `pauseBefore`. -/
theorem recorder_monotone_pauseBefore (ops : List RecorderOp)
    (hmono : opTimesMonotone ops) :
    relTimesMonotone (runRecorder ops).events ∧
    pauseBeforeBounded (runRecorder ops).events ∧
    (∀ e, (runRecorder ops).events.head? = some e → e.pauseBefore = e.relativeTime) ∧
    ((∀ op ∈ ops, op.isResume = false) →
      pauseBeforeConsistent (runRecorder ops).events) := by
  have hfrom : opsTimesFrom (match ops.head? with | some a => a.time | none => 0) ops :=
    opsTimesFrom_of_monotone ops _ hmono (fun a ha => by rw [ha])
  obtain ⟨now', inv⟩ := runRecorder_inv_aux ops {} _ (Or.inl ⟨rfl, rfl⟩) hfrom
  have hchains : relTimesMonotone (runRecorder ops).events ∧
      pauseBeforeBounded (runRecorder ops).events ∧
      (∀ e, (runRecorder ops).events.head? = some e →
        e.pauseBefore = e.relativeTime) := by
    rcases inv with h0 | ha
    · rw [show (runRecorder ops).events = [] from h0.2]
      exact ⟨trivial, trivial, by simp⟩
    · exact ⟨ha.mono, ha.bounded, ha.headOk⟩
  refine ⟨hchains.1, hchains.2.1, hchains.2.2, ?_⟩
  intro hnr
  exact (runRecorder_invEq_aux ops {} ⟨by simp [relLast], trivial⟩ hnr).2

/-- C4 witness: the amended theorem applied to the concrete run with a
pause/resume in the middle. -/
theorem recorder_monotone_pauseBefore_wit :
    relTimesMonotone (runRecorder resumeOps).events ∧
    pauseBeforeBounded (runRecorder resumeOps).events ∧
    (∀ e, (runRecorder resumeOps).events.head? = some e →
      e.pauseBefore = e.relativeTime) ∧
    ((∀ op ∈ resumeOps, op.isResume = false) →
      pauseBeforeConsistent (runRecorder resumeOps).events) :=
  recorder_monotone_pauseBefore resumeOps (by decide)

/-- C10: whatever state the recorder is in when stopped (as long as it is
not idle, in which case `stopSession` returns null), the returned session
reports `totalPauseTime = 0` and `totalActiveTime = endTime - startTime` —
time spent paused is neither subtracted from the active time nor recorded
as pause time. -/
theorem stopSession_pause_time_zero (st : RecorderState) (now : Int)
    (name : String) (text : List Char) (h : st.status ≠ .IDLE) :
    ∃ s, stopSession st now name text = some s ∧ s.totalPauseTime = 0 ∧
      s.totalActiveTime = s.endTime - s.startTime := by
  rw [stopSession, if_neg h]
  exact ⟨_, rfl, rfl, rfl⟩

/-- C10 witness: stopping a paused recorder state. -/
theorem stopSession_pause_time_zero_wit :
    ∃ s, stopSession { status := .PAUSED, events := [], startTime := 5, lastEventTime := 9 }
        20 "s" ['h', 'i'] = some s ∧ s.totalPauseTime = 0 ∧
      s.totalActiveTime = s.endTime - s.startTime :=
  stopSession_pause_time_zero
    { status := .PAUSED, events := [], startTime := 5, lastEventTime := 9 }
    20 "s" ['h', 'i'] (by decide)

/-! ## Summary statistics (`AnalysisDashboard.stats`) -/

/-- The whitespace class through which `trim()` and `split(/\s+/)` act (the
whitespace characters this application's texts can contain). -/
def isWS (c : Char) : Bool :=
  c == ' ' || c == '\n' || c == '\t' || c == '\r'

/-- JS `String.prototype.trim`. -/
def jsTrim (s : List Char) : List Char :=
  ((s.dropWhile isWS).reverse.dropWhile isWS).reverse

/-- JS `s.split(/\s+/)`: the pieces between maximal whitespace runs, with a
leading empty piece when the string starts with whitespace, a trailing
empty piece when it ends with whitespace, and `[""]` for the empty
string. -/
def jsSplitWS : List Char → List (List Char)
  | [] => [[]]
  | [c] => if isWS c then [[], []] else [[c]]
  | c :: r :: rest =>
    if isWS c then
      (if isWS r then jsSplitWS (r :: rest) else [] :: jsSplitWS (r :: rest))
    else
      (c :: (jsSplitWS (r :: rest)).headD []) :: (jsSplitWS (r :: rest)).tail

/-- The `stats.words` of the dashboard:
`session.finalText.trim().split(/\s+/).length`. -/
def statsWords (finalText : List Char) : Nat :=
  (jsSplitWS (jsTrim finalText)).length

/-- The `stats.wpm` of the dashboard:
`durationSec > 0 ? Math.round((words / durationSec) * 60) : 0` with
`durationSec = (endTime - startTime) / 1000`, modelled over the rationals
with `round` standing for `Math.round`. -/
def statsWpm (finalText : List Char) (startTime endTime : Int) : Int :=
  let words : ℚ := (statsWords finalText : ℚ)
  let durationSec : ℚ := ((endTime - startTime : Int) : ℚ) / 1000
  if 0 < durationSec then round ((words / durationSec) * 60) else 0

structure SessionStats where
  words : Nat
  wpm : Int
deriving DecidableEq, Repr

def sessionStats (session : WritingSession) : SessionStats :=
  { words := statsWords session.finalText,
    wpm := statsWpm session.finalText session.startTime session.endTime }

/-- Claim-side word count for C8: the tokens of `finalText` split on runs
of whitespace, with empty tokens discarded. -/
def wordsClaim (finalText : List Char) : Nat :=
  ((jsSplitWS finalText).filter (fun tk => !tk.isEmpty)).length

/-! ### Facts about `split(/\s+/)` on trimmed text -/

theorem jsSplitWS_ne_nil : ∀ s : List Char, jsSplitWS s ≠ []
  | [] => by simp [jsSplitWS]
  | [c] => by by_cases hc : isWS c = true <;> simp [jsSplitWS, hc]
  | c :: r :: rest => by
    have ih := jsSplitWS_ne_nil (r :: rest)
    by_cases hc : isWS c = true
    · by_cases hr : isWS r = true
      · simpa [jsSplitWS, hc, hr] using ih
      · simp [jsSplitWS, hc, hr]
    · simp [jsSplitWS, hc]

theorem dropWhile_head_not (p : Char → Bool) :
    ∀ (l : List Char) (c : Char), (l.dropWhile p).head? = some c → p c = false
  | [], c, h => by simp at h
  | a :: rest, c, h => by
    by_cases hp : p a = true
    · rw [List.dropWhile_cons_of_pos hp] at h
      exact dropWhile_head_not p rest c h
    · rw [List.dropWhile_cons_of_neg hp] at h
      simp only [List.head?_cons, Option.some.injEq] at h
      subst h
      exact Bool.eq_false_iff.mpr hp

theorem getLast?_dropWhile (p : Char → Bool) :
    ∀ l : List Char, l.dropWhile p ≠ [] → (l.dropWhile p).getLast? = l.getLast?
  | [], h => absurd rfl h
  | a :: rest, h => by
    by_cases hp : p a = true
    · rw [List.dropWhile_cons_of_pos hp] at h ⊢
      obtain ⟨b, l, rfl⟩ : ∃ b l, rest = b :: l := by
        cases rest with
        | nil => rw [show ([] : List Char).dropWhile p = [] from rfl] at h; exact absurd rfl h
        | cons b l => exact ⟨b, l, rfl⟩
      rw [getLast?_dropWhile p (b :: l) h]
      rfl
    · rw [List.dropWhile_cons_of_neg hp]

theorem jsTrim_head_not_ws (s : List Char) (c : Char) (h : (jsTrim s).head? = some c) :
    isWS c = false := by
  rw [jsTrim, List.head?_reverse] at h
  have hne : (s.dropWhile isWS).reverse.dropWhile isWS ≠ [] := by
    intro he
    rw [he] at h
    simp at h
  rw [getLast?_dropWhile isWS _ hne, List.getLast?_reverse] at h
  exact dropWhile_head_not isWS s c h

theorem jsTrim_getLast_not_ws (s : List Char) (c : Char) (h : (jsTrim s).getLast? = some c) :
    isWS c = false := by
  rw [jsTrim, List.getLast?_reverse] at h
  exact dropWhile_head_not isWS _ c h

theorem jsSplitWS_tokens_nonempty :
    ∀ s : List Char, (∀ c, s.getLast? = some c → isWS c = false) →
      (∀ tk ∈ (jsSplitWS s).tail, tk ≠ []) ∧
      (s ≠ [] → (∀ c, s.head? = some c → isWS c = false) → ∀ tk ∈ jsSplitWS s, tk ≠ [])
  | [], _ => ⟨by simp [jsSplitWS], fun h => absurd rfl h⟩
  | [c], hlast => by
    have hc : isWS c = false := hlast c rfl
    constructor
    · simp [jsSplitWS, hc]
    · intro _ _ tk htk
      rw [show jsSplitWS [c] = [[c]] by simp [jsSplitWS, hc]] at htk
      simp only [List.mem_singleton] at htk
      subst htk
      simp
  | c :: r :: rest, hlast => by
    have hlast' : ∀ x, (r :: rest).getLast? = some x → isWS x = false := fun x hx =>
      hlast x hx
    obtain ⟨ihTail, ihAll⟩ := jsSplitWS_tokens_nonempty (r :: rest) hlast'
    by_cases hc : isWS c = true
    · constructor
      · by_cases hr : isWS r = true
        · intro tk htk
          rw [show jsSplitWS (c :: r :: rest) = jsSplitWS (r :: rest) by
            simp [jsSplitWS, hc, hr]] at htk
          exact ihTail tk htk
        · intro tk htk
          rw [show jsSplitWS (c :: r :: rest) = [] :: jsSplitWS (r :: rest) by
            simp [jsSplitWS, hc, hr]] at htk
          simp only [List.tail_cons] at htk
          refine ihAll (by simp) ?_ tk htk
          intro x hx
          simp only [List.head?_cons, Option.some.injEq] at hx
          subst hx
          exact Bool.eq_false_iff.mpr hr
      · intro _ hhead
        exact absurd (hhead c rfl) (by simp [hc])
    · have hc' : isWS c = false := Bool.eq_false_iff.mpr hc
      obtain ⟨t, ts, heq⟩ : ∃ t ts, jsSplitWS (r :: rest) = t :: ts := by
        cases h : jsSplitWS (r :: rest) with
        | nil => exact absurd h (jsSplitWS_ne_nil _)
        | cons t ts => exact ⟨t, ts, rfl⟩
      have hsplit : jsSplitWS (c :: r :: rest) = (c :: t) :: ts := by
        simp [jsSplitWS, hc', heq]
      constructor
      · intro tk htk
        rw [hsplit] at htk
        simp only [List.tail_cons] at htk
        exact ihTail tk (by rw [heq]; simpa using htk)
      · intro _ _ tk htk
        rw [hsplit] at htk
        simp only [List.mem_cons] at htk
        rcases htk with rfl | htk
        · simp
        · exact ihTail tk (by rw [heq]; simpa using htk)

theorem jsSplitWS_all_ws :
    ∀ w : List Char, (∀ c ∈ w, isWS c = true) → w ≠ [] → jsSplitWS w = [[], []]
  | [], _, h => absurd rfl h
  | [c], hws, _ => by simp [jsSplitWS, hws c (by simp)]
  | c :: r :: rest, hws, _ => by
    rw [show jsSplitWS (c :: r :: rest) = jsSplitWS (r :: rest) by
      simp [jsSplitWS, hws c (by simp), hws r (by simp)]]
    exact jsSplitWS_all_ws (r :: rest) (fun x hx => hws x (by simp [hx])) (by simp)

theorem jsSplitWS_append_ws :
    ∀ s w : List Char, s ≠ [] → (∀ c, s.getLast? = some c → isWS c = false) →
      w ≠ [] → (∀ c ∈ w, isWS c = true) →
      jsSplitWS (s ++ w) = jsSplitWS s ++ [[]]
  | [], _, hs, _, _, _ => absurd rfl hs
  | [x], w, _, hlast, hw, hws => by
    have hx : isWS x = false := hlast x rfl
    obtain ⟨a, w', rfl⟩ : ∃ a w', w = a :: w' := by
      cases w with
      | nil => exact absurd rfl hw
      | cons a w' => exact ⟨a, w', rfl⟩
    simp only [List.singleton_append]
    simp [jsSplitWS, hx, jsSplitWS_all_ws (a :: w') hws (by simp)]
  | x :: y :: s', w, _, hlast, hw, hws => by
    have hlast' : ∀ c, (y :: s').getLast? = some c → isWS c = false := fun c hc =>
      hlast c hc
    have ih := jsSplitWS_append_ws (y :: s') w (by simp) hlast' hw hws
    by_cases hx : isWS x = true
    · by_cases hy : isWS y = true
      · calc jsSplitWS ((x :: y :: s') ++ w)
            = jsSplitWS ((y :: s') ++ w) := by simp [jsSplitWS, hx, hy]
          _ = jsSplitWS (y :: s') ++ [[]] := ih
          _ = jsSplitWS (x :: y :: s') ++ [[]] := by
              rw [show jsSplitWS (x :: y :: s') = jsSplitWS (y :: s') by
                simp [jsSplitWS, hx, hy]]
      · have hy' : isWS y = false := Bool.eq_false_iff.mpr hy
        calc jsSplitWS ((x :: y :: s') ++ w)
            = [] :: jsSplitWS ((y :: s') ++ w) := by simp [jsSplitWS, hx, hy']
          _ = [] :: (jsSplitWS (y :: s') ++ [[]]) := by rw [ih]
          _ = ([] :: jsSplitWS (y :: s')) ++ [[]] := rfl
          _ = jsSplitWS (x :: y :: s') ++ [[]] := by
              rw [show jsSplitWS (x :: y :: s') = [] :: jsSplitWS (y :: s') by
                simp [jsSplitWS, hx, hy']]
    · have hx' : isWS x = false := Bool.eq_false_iff.mpr hx
      obtain ⟨t, ts, heq⟩ : ∃ t ts, jsSplitWS (y :: s') = t :: ts := by
        cases h : jsSplitWS (y :: s') with
        | nil => exact absurd h (jsSplitWS_ne_nil _)
        | cons t ts => exact ⟨t, ts, rfl⟩
      have hcomb : jsSplitWS (y :: (s' ++ w)) = t :: (ts ++ [[]]) := by
        rw [show y :: (s' ++ w) = (y :: s') ++ w from rfl, ih, heq]
        rfl
      calc jsSplitWS ((x :: y :: s') ++ w)
          = (x :: t) :: (ts ++ [[]]) := by simp [jsSplitWS, hx', hcomb]
        _ = ((x :: t) :: ts) ++ [[]] := rfl
        _ = jsSplitWS (x :: y :: s') ++ [[]] := by
            rw [show jsSplitWS (x :: y :: s') = (x :: t) :: ts by simp [jsSplitWS, hx', heq]]

theorem filter_jsSplitWS_dropWhile :
    ∀ s : List Char,
      (jsSplitWS (s.dropWhile isWS)).filter (fun tk => !tk.isEmpty) =
        (jsSplitWS s).filter (fun tk => !tk.isEmpty)
  | [] => rfl
  | [c] => by
    by_cases hc : isWS c = true
    · rw [List.dropWhile_cons_of_pos hc]
      simp [jsSplitWS, hc]
    · rw [List.dropWhile_cons_of_neg hc]
  | c :: r :: rest => by
    by_cases hc : isWS c = true
    · rw [show (c :: r :: rest).dropWhile isWS = (r :: rest).dropWhile isWS from
        List.dropWhile_cons_of_pos hc]
      by_cases hr : isWS r = true
      · rw [filter_jsSplitWS_dropWhile (r :: rest),
          show jsSplitWS (c :: r :: rest) = jsSplitWS (r :: rest) by simp [jsSplitWS, hc, hr]]
      · rw [show (r :: rest).dropWhile isWS = r :: rest from List.dropWhile_cons_of_neg hr,
          show jsSplitWS (c :: r :: rest) = [] :: jsSplitWS (r :: rest) by
            simp [jsSplitWS, hc, hr]]
        simp
    · rw [List.dropWhile_cons_of_neg hc]

theorem statsWords_eq_wordsClaim (ft : List Char) (h : jsTrim ft ≠ []) :
    statsWords ft = wordsClaim ft := by
  have hlast : ∀ c, (jsTrim ft).getLast? = some c → isWS c = false := jsTrim_getLast_not_ws ft
  have hhead : ∀ c, (jsTrim ft).head? = some c → isWS c = false := jsTrim_head_not_ws ft
  have htokens : ∀ tk ∈ jsSplitWS (jsTrim ft), tk ≠ [] :=
    (jsSplitWS_tokens_nonempty (jsTrim ft) hlast).2 h hhead
  have hfilter_core :
      (jsSplitWS (jsTrim ft)).filter (fun tk => !tk.isEmpty) = jsSplitWS (jsTrim ft) := by
    rw [List.filter_eq_self]
    intro tk htk
    simpa using htokens tk htk
  have hdecomp : ft.dropWhile isWS =
      jsTrim ft ++ ((ft.dropWhile isWS).reverse.takeWhile isWS).reverse := by
    rw [jsTrim]
    conv_lhs => rw [← List.reverse_reverse (ft.dropWhile isWS),
      ← List.takeWhile_append_dropWhile isWS (ft.dropWhile isWS).reverse]
    rw [List.reverse_append]
  have hws_w : ∀ c ∈ ((ft.dropWhile isWS).reverse.takeWhile isWS).reverse, isWS c = true := by
    intro c hc
    rw [List.mem_reverse] at hc
    exact List.mem_takeWhile_imp hc
  rw [statsWords, wordsClaim, ← filter_jsSplitWS_dropWhile ft]
  by_cases hwnil : ((ft.dropWhile isWS).reverse.takeWhile isWS).reverse = []
  · rw [hdecomp, hwnil, List.append_nil, hfilter_core]
  · rw [hdecomp, jsSplitWS_append_ws (jsTrim ft) _ h hlast hwnil hws_w,
      List.filter_append, hfilter_core]
    simp

/-- C8 counterexample: with an empty `finalText` the dashboard reports a
word count of 1 — `"".trim().split(/\s+/)` is `[""]` — while the claim's
"empty tokens discarded" count is 0. -/
theorem stats_words_empty_cex :
    (sessionStats { finalText := [], endTime := 60000 }).words = 1 ∧
    wordsClaim [] = 0 := by
  exact ⟨by decide, by decide⟩

/-- C8 (amended): the word count equals the number of whitespace-separated
tokens of `finalText` (empty tokens discarded) whenever the trimmed text is
non-empty, but an empty or all-whitespace `finalText` is reported as 1 word
(JS `split` on the empty string yields one empty token); words-per-minute
equals words divided by `durationSeconds/60`, rounded, for positive
duration, and 0 when the duration is zero. -/
theorem stats_words_wpm (session : WritingSession) :
    (jsTrim session.finalText = [] → (sessionStats session).words = 1) ∧
    (jsTrim session.finalText ≠ [] →
      (sessionStats session).words = wordsClaim session.finalText) ∧
    (0 < session.endTime - session.startTime →
      (sessionStats session).wpm =
        round (((sessionStats session).words : ℚ) /
          ((((session.endTime - session.startTime : Int) : ℚ) / 1000) / 60))) ∧
    (session.endTime = session.startTime → (sessionStats session).wpm = 0) := by
  refine ⟨?_, ?_, ?_, ?_⟩
  · intro h
    show statsWords session.finalText = 1
    rw [statsWords, h]
    rfl
  · intro h
    exact statsWords_eq_wordsClaim session.finalText h
  · intro h
    show statsWpm session.finalText session.startTime session.endTime = _
    have hd : (0 : ℚ) < ((session.endTime - session.startTime : Int) : ℚ) / 1000 := by
      apply div_pos
      · exact_mod_cast h
      · norm_num
    simp only [statsWpm, if_pos hd]
    congr 1
    rw [show (((sessionStats session).words : Nat) : ℚ) =
      ((statsWords session.finalText : Nat) : ℚ) from rfl]
    have hne : ((session.endTime - session.startTime : Int) : ℚ) ≠ 0 := by
      have : (session.endTime - session.startTime : Int) ≠ 0 := by omega
      exact_mod_cast this
    field_simp
    ring
  · intro h
    show statsWpm session.finalText session.startTime session.endTime = 0
    simp only [statsWpm]
    rw [if_neg]
    rw [h]
    simp

end Inputlog
